import Mathlib

/-!
# unjumble.c: matching, collection, ordering, selection and presentation

A shallow embedding of `src/unjumble.c`.

* A C string is the list of its characters before the terminating NUL, so a
  well-formed string contains no NUL character.
* An array of strings is a list of strings. The array `words` holds 100000
  pointers, and `toSearch` is declared one character short of what `strcpy`
  writes into it: a store past the end of `words`, or a copy that leaves the
  stack storage of `toSearch` (see `vlaReserved`), has no defined result, and
  the loop that makes it returns `none`. Allocation is taken to succeed.
* A pointer that may be absent (`args.sort`, `args.include`) is an `Option`.
* The dictionary is the sequence of lines that successive `fgets` calls hand
  to the loop of `check_match`; a line keeps its newline when it has one.
* Standard output is the list of strings printed, one entry per `printf`.
* `qsort` is library code: `sort_array` takes it as a parameter, and the
  theorems assume only the contract the C standard gives it.
* `argv` is the list of its strings, program name first; the null pointer
  that ends it is the end of the list.
* `remove_char` is modelled twice: on the string, as `check_match` uses it,
  and loop by loop on the character buffer; the two are proved to agree.
-/

namespace Unjumble

/-! ## Library functions used by the source -/

/-- The terminating character of a C string. -/
def NUL : Char := Char.ofNat 0

/-- The `tolower` of the C locale: only the letters A to Z change. -/
def tolower (c : Char) : Char :=
  if 65 ≤ c.toNat ∧ c.toNat ≤ 90 then Char.ofNat (c.toNat + 32) else c

/-- Library function `strlen`: the number of characters before the terminator. -/
def strlen (s : List Char) : Nat := s.length

/-- Library function `strchr`: offset of the first occurrence of `c` in the string, the
terminator included, or `none` for a null result. -/
def strchr : List Char → Char → Option Nat
  | [], c => if c = NUL then some 0 else none
  | x :: rest, c => if x = c then some 0 else (strchr rest c).map (· + 1)

/-- Library function `strcmp`: the sign of the comparison of two strings as sequences of
character codes (the C standard fixes only the sign). -/
def strcmp : List Char → List Char → Int
  | [], [] => 0
  | [], _ :: _ => -1
  | _ :: _, [] => 1
  | a :: as, b :: bs =>
    if a = b then strcmp as bs else if a.toNat < b.toNat then -1 else 1

/-- Library function `strcasecmp`: as `strcmp` on the lower-cased strings (POSIX fixes only
the sign of the result). -/
def strcasecmp : List Char → List Char → Int
  | [], [] => 0
  | [], _ :: _ => -1
  | _ :: _, [] => 1
  | a :: as, b :: bs =>
    if tolower a = tolower b then strcasecmp as bs
    else if (tolower a).toNat < (tolower b).toNat then -1 else 1

/-! ## The source -/

/-- The error codes of the program. -/
inductive ErrorCode where
  | E_OK
  | E_PARAMS
  | E_INVALID_FILE
  | E_MORE_LETTERS
  | E_INVALID_LETTERS
  | E_NO_MATCHES
  deriving DecidableEq, Repr

open ErrorCode

/-- The command line arguments `check_match` reads (`dict` is replaced by the
lines read from it). -/
structure Args where
  sort : Option (List Char)
  «include» : Option (List Char)
  letters : List Char

/-- Source function `change_case`: every character of the string is lower-cased. -/
def change_case (letters : List Char) : List Char := letters.map tolower

/-- Source function `remove_char`: the first loop steps over the characters different from
`c`; the second loop shifts everything after the first `c` (terminator
included) one place to the left. Without a `c` both loops leave the string
alone. -/
def remove_char : List Char → Char → List Char
  | [], _ => []
  | x :: rest, c => if x ≠ c then x :: remove_char rest c else rest

/-- Source function `alpha_compare`: the result of `strcasecmp` on the two strings. -/
def alpha_compare (a b : List Char) : Int := strcasecmp a b

/-- Source function `len_compare`: -1 when the first string is longer, 1 when
the second is longer, otherwise the result of `strcasecmp`. -/
def len_compare (stringA stringB : List Char) : Int :=
  let lenA := strlen stringA
  let lenB := strlen stringB
  if lenA > lenB then -1
  else if lenB > lenA then 1
  else strcasecmp stringA stringB

/-- The type of `qsort` on an array of strings: comparison function and
array in, array out. -/
abbrev Qsort := (List Char → List Char → Int) → List (List Char) → List (List Char)

/-- Source function `sort_array`: three independent tests of the sort string, each of which
sorts the array when it matches. -/
def sort_array (qsort : Qsort) (sort : List Char) (words : List (List Char)) :
    List (List Char) :=
  let words := if strcmp sort "-alpha".toList = 0 then qsort alpha_compare words else words
  let words := if strcmp sort "-len".toList = 0 then qsort len_compare words else words
  let words := if strcmp sort "-longest".toList = 0 then qsort len_compare words else words
  words

/-- Source function `print_words`: the strings printed, in order. With an
include string, a word is printed when `strchr` finds the first character of
that string in it. -/
def print_words («include» : Option (List Char)) (words : List (List Char)) :
    List (List Char) :=
  match «include» with
  | some inc => words.filter (fun w => (strchr w (inc.headD NUL)).isSome)
  | none => words

/-- One step of the inner `for` loop of `check_match` on the character
`line[i]`: the state is `toSearch` and `lettersPresent`. -/
def matchStep (st : List Char × Bool) (ch : Char) : List Char × Bool :=
  if (strchr st.1 (tolower ch)).isNone then (st.1, false)
  else (remove_char st.1 (tolower ch), st.2)

/-- The inner `for` loop of `check_match`: `i` runs over
`0 .. strlen(line) - 2`, so the last character of the line is not looked at. -/
def matchLoop (toSearch : List Char) (line : List Char) : List Char × Bool :=
  (line.take (strlen line - 1)).foldl matchStep (toSearch, true)

/-- State of the `while` loop of `check_match`: the scratch buffer and the
array of matches (`wordCount` is the length of `words`). -/
structure ScanState where
  toSearch : List Char
  words : List (List Char)

/-- Number of pointers the array `words` has room for:
`malloc(100000 * sizeof(char *))`. -/
def WORDS_CAPACITY : Nat := 100000

/-- Bytes of stack storage taken for a variable length array of `n`
characters: the stack is moved in units of 16 bytes (the stack alignment of
the x86-64 and AArch64 calling conventions), so an array whose length is not
a multiple of 16 is followed by unused bytes of its own. -/
def vlaReserved (n : Nat) : Nat := (n + 15) / 16 * 16

/-- Library function `strcpy` into a buffer with `room` bytes of storage: the
string copied, or `none` when the string with its terminator does not fit
and the copy overwrites another object. -/
def strcpy (room : Nat) (src : List Char) : Option (List Char) :=
  if strlen src + 1 ≤ room then some src else none

/-- Body of the `while (fgets(...))` loop of `check_match` for one line.
`toSearch` is declared with `strlen(lowerLetters)` characters, one fewer than
`strcpy` writes; a match is stored at `words[wordCount]` without a test of
`wordCount`. The result is `none` when the copy leaves the storage of
`toSearch` or the store leaves `words`. -/
def scanLine (lowerLetters : List Char) (st : ScanState) (line : List Char) :
    Option ScanState :=
  match strcpy (vlaReserved (strlen lowerLetters)) lowerLetters with
  | none => none
  | some toSearch =>
    if strlen line > 3 then
      if (matchLoop toSearch line).2 then
        if st.words.length < WORDS_CAPACITY then
          some ⟨(matchLoop toSearch line).1, st.words ++ [line]⟩
        else none
      else some ⟨(matchLoop toSearch line).1, st.words⟩
    else some ⟨toSearch, st.words⟩

/-- The `while` loop of `check_match` from state `st` over the lines still
to be read. -/
def scanFrom (lowerLetters : List Char) : ScanState → List (List Char) → Option ScanState
  | st, [] => some st
  | st, line :: rest =>
    match scanLine lowerLetters st line with
    | none => none
    | some st1 => scanFrom lowerLetters st1 rest

/-- The `while` loop of `check_match` over the lines of the dictionary,
started with scratch buffer `scratch` and no matches. -/
def scan (lowerLetters scratch : List Char) (lines : List (List Char)) : Option ScanState :=
  scanFrom lowerLetters ⟨scratch, []⟩ lines

/-- The MatchSet: the array `words` when the `while` loop ends, or `none`
when the loop has no defined result. -/
def collect (letters : List Char) (lines : List (List Char)) : Option (List (List Char)) :=
  (scan (change_case letters) [] lines).map (fun st => st.words)

/-- The copy loop of `check_match` from `words` to `wordsSorted`; `first` is
`words[0]`. Each iteration calls `strcmp` on `args.sort`, which has no
defined result for a null pointer. -/
def selectLoop (sort : Option (List Char)) (first : List Char) :
    List (List Char) → Option (List (List Char))
  | [] => some []
  | w :: rest =>
    match sort with
    | none => none
    | some s =>
      if strcmp s "-longest".toList = 0 then
        if strlen w = strlen first then (selectLoop sort first rest).map (w :: ·)
        else selectLoop sort first rest
      else (selectLoop sort first rest).map (w :: ·)

/-- The part of `check_match` after the `while` loop, on the array `words`
that the loop built. -/
def finish (qsort : Qsort) (args : Args) (words : List (List Char)) :
    Option (List (List Char) × ErrorCode) :=
  let words := match args.sort with
    | some s => sort_array qsort s words
    | none => words
  match selectLoop args.sort (words.headD []) words with
  | none => none
  | some wordsSorted =>
    let out := print_words args.include wordsSorted
    if words.length = 0 then some (out, E_NO_MATCHES) else some (out, E_OK)

/-- Source function `check_match`: the strings printed and the error code
returned, or `none` when the run has no defined result: the `while` loop
stores past `toSearch` or `words`, or the copy loop reaches `strcmp` on a
null `args.sort`. `wordsSorted` has the capacity of `words` and receives at
most as many entries. -/
def check_match (qsort : Qsort) (args : Args) (lines : List (List Char)) :
    Option (List (List Char) × ErrorCode) :=
  match collect args.letters lines with
  | none => none
  | some words => finish qsort args words

/-- The verdict of the `while` loop body on one line: the line is long
enough and the inner loop leaves `lettersPresent` true. -/
def lineAccepted (lowerLetters line : List Char) : Bool :=
  decide (strlen line > 3) && (matchLoop lowerLetters line).2

/-- What the C standard asks of a comparison function handed to `qsort`: the
results are consistent with one total ordering of the elements. -/
def ConsistentCompar (compar : List Char → List Char → Int) : Prop :=
  (∀ a b, Int.sign (compar a b) = - Int.sign (compar b a)) ∧
  (∀ a b c, compar a b ≤ 0 → compar b c ≤ 0 → compar a c ≤ 0)

/-- What the C standard promises of `qsort` for such a comparison function:
the array afterwards holds the same elements in ascending order. The order
of elements that compare equal is left open. -/
def QsortContract (qsort : Qsort) : Prop :=
  ∀ compar, ConsistentCompar compar → ∀ words,
    (qsort compar words).Perm words ∧
      (qsort compar words).Pairwise (fun a b => compar a b ≤ 0)

/-- The greatest `strlen` among the entries of an array (0 for none). -/
def maxLen (words : List (List Char)) : Nat :=
  (words.map strlen).foldr max 0

/-- A sorting routine usable for `qsort`: insertion sort. -/
def qsortInsertion : Qsort :=
  fun compar words => words.insertionSort (fun a b => compar a b ≤ 0)

/-! ## Command line parsing -/

/-- The `isalpha` of the C locale: the letters A to Z and a to z. -/
def isalpha (c : Char) : Bool :=
  (decide (65 ≤ c.toNat) && decide (c.toNat ≤ 90)) ||
    (decide (97 ≤ c.toNat) && decide (c.toNat ≤ 122))

/-- The `toupper` of the C locale: only the letters a to z change. -/
def toupper (c : Char) : Char :=
  if 97 ≤ c.toNat ∧ c.toNat ≤ 122 then Char.ofNat (c.toNat - 32) else c

/-- The default dictionary path. -/
def STD_DICT_PATH : List Char := "/usr/share/dict/words".toList

/-- Source function `check_letters_length`: false for fewer than 3 letters. -/
def check_letters_length (letters : List Char) : Bool :=
  if strlen letters < 3 then false else true

/-- Source function `check_letters`: the loop returns false at the first
character that is not alphabetic. -/
def check_letters : List Char → Bool
  | [] => true
  | c :: rest => if !isalpha c then false else check_letters rest

/-- Source function `check_if_sort`: the argument is one of the three sort
options. -/
def check_if_sort (sort : List Char) : Bool :=
  decide (strcmp sort "-alpha".toList = 0) || decide (strcmp sort "-len".toList = 0) ||
    decide (strcmp sort "-longest".toList = 0)

/-- Source function `check_if_include`: the argument is "-include". -/
def check_if_include (inc : List Char) : Bool :=
  decide (strcmp inc "-include".toList = 0)

/-- Source function `check_include`: the string has length 1 and its
character is alphabetic. -/
def check_include (inc : List Char) : Bool :=
  if strlen inc = 1 then
    if isalpha (inc.headD NUL) then true else false
  else false

/-- The four variables `parse_args` writes through its pointer parameters;
`none` is a null pointer. -/
structure ArgSlots where
  sort : Option (List Char)
  «include» : Option (List Char)
  letters : Option (List Char)
  dict : Option (List Char)
  deriving DecidableEq

/-- The `for` loop of `parse_args`, run on `argv[i], argv[i + 1], ...` up to
the null pointer that ends `argv`. The result is the value returned and the
variables written, or `none` when `check_include` is handed the null pointer
after a final "-include". The width of the copy of the default path into
`dict` is not modelled. -/
def parse_loop : List (List Char) → Nat → Nat → ArgSlots → Option (ErrorCode × ArgSlots)
  | [], _, _, slots => some (E_PARAMS, slots)
  | arg :: rest, sortCount, incluCount, slots =>
    if arg.headD NUL = '-' then
      if check_if_sort arg && decide (sortCount = 0) then
        parse_loop rest (sortCount + 1) incluCount { slots with sort := some arg }
      else if check_if_include arg && decide (incluCount = 0) then
        match rest.head? with
        | none => none
        | some next =>
          if check_include next then
            parse_loop rest sortCount (incluCount + 1) { slots with «include» := some next }
          else some (E_PARAMS, slots)
      else some (E_PARAMS, slots)
    else
      let block : Option ErrorCode × ArgSlots :=
        if incluCount = 0 then
          if check_letters_length arg then
            if check_letters arg then
              match rest.head? with
              | some next =>
                if (rest.tail.head?).isSome then
                  (some E_PARAMS, { slots with letters := some arg, dict := some next })
                else (none, { slots with letters := some arg, dict := some next })
              | none => (none, { slots with letters := some arg, dict := some STD_DICT_PATH })
            else (some E_INVALID_LETTERS, slots)
          else (some E_MORE_LETTERS, slots)
        else (none, slots)
      match block.1 with
      | some code => some (code, block.2)
      | none =>
        if incluCount = 1 then parse_loop rest sortCount (incluCount - 1) block.2
        else some (E_OK, block.2)

/-- Source function `parse_args` on the argument vector `argv` (program name
first, `argc` its length), with `slots` the content of the four variables
before the call. -/
def parse_args (argv : List (List Char)) (slots : ArgSlots) : Option (ErrorCode × ArgSlots) :=
  let argc := argv.length
  if argc < 2 ∨ argc > 6 then some (E_PARAMS, slots)
  else parse_loop (argv.drop 1) 0 0 slots

/-! ## Reading the dictionary -/

/-- The characters one `fgets` call stores when it may store `k` more: it
stops after a newline, at the end of the file, or when `k` are stored. The
second component is what is left of the file. -/
def fgetsChars : Nat → List Char → List Char × List Char
  | 0, stream => ([], stream)
  | _ + 1, [] => ([], [])
  | k + 1, c :: stream =>
    if c = '\n' then ([c], stream)
    else (c :: (fgetsChars k stream).1, (fgetsChars k stream).2)

/-- Library function `fgets` with a buffer of `size` characters: `none` (a
null result) at the end of the file, otherwise the line stored and the rest
of the file. -/
def fgets (size : Nat) (stream : List Char) : Option (List Char × List Char) :=
  if stream = [] then none else some (fgetsChars (size - 1) stream)

/-- The lines that the loop `while (fgets(line, sizeof(line), file))` of
`check_match` sees, for at most `fuel` calls. -/
def fileLines : Nat → List Char → List (List Char)
  | 0, _ => []
  | fuel + 1, stream =>
    match fgets 50 stream with
    | none => []
    | some r => r.1 :: fileLines fuel r.2

/-! ## `remove_char` on the character buffer -/

/-- The string held by a character buffer: the characters before the first
NUL. -/
def cstring (buf : List Char) : List Char := buf.takeWhile (fun c => decide (c ≠ NUL))

/-- The first `while` loop of `remove_char`, from index `i`, for at most
`fuel` iterations: the index at which it stops. -/
def remove_char_scan (string : List Char) (c : Char) (len : Nat) : Nat → Nat → Nat
  | 0, i => i
  | fuel + 1, i =>
    if i < len ∧ string.getD i NUL ≠ c then remove_char_scan string c len fuel (i + 1) else i

/-- The second `while` loop of `remove_char`, from index `i`, for at most
`fuel` iterations: the buffer at the end. -/
def remove_char_shift (len : Nat) : Nat → Nat → List Char → List Char
  | 0, _, string => string
  | fuel + 1, i, string =>
    if i < len then
      remove_char_shift len fuel (i + 1) (string.set i (string.getD (i + 1) NUL))
    else string

/-- Source function `remove_char` statement by statement on the buffer that
holds the string; each loop runs at most `len` times, so `len` is fuel
enough. -/
def remove_char_buffer (string : List Char) (c : Char) : List Char :=
  let len := strlen (cstring string)
  let i := remove_char_scan string c len len 0
  remove_char_shift len len i string

/-! ## The matcher as the specification words it -/

/-- Spec wording of the matcher, on the multiset of letters still available
and the characters of the word: a character the multiset does not contain
rejects the word at once; otherwise one instance is consumed and the scan
goes on. -/
def specMatches : List Char → List Char → Bool
  | _, [] => true
  | avail, ch :: rest =>
    if avail.count (tolower ch) = 0 then false
    else specMatches (avail.erase (tolower ch)) rest


/-! ## Facts about the library functions -/

theorem toNat_ofNat_of_lt (n : Nat) (h : n < 55296) : (Char.ofNat n).toNat = n := by
  unfold Char.ofNat
  rw [dif_pos (Or.inl h)]
  rfl

theorem char_eq_of_toNat_eq {a b : Char} (h : a.toNat = b.toNat) : a = b := by
  have h2 := congrArg Char.ofNat h
  simpa using h2

theorem NUL_toNat : NUL.toNat = 0 := rfl

theorem tolower_eq_NUL {c : Char} (h : tolower c = NUL) : c = NUL := by
  unfold tolower at h
  split at h
  · rename_i hc
    have h2 := congrArg Char.toNat h
    rw [toNat_ofNat_of_lt _ (by omega), NUL_toNat] at h2
    omega
  · exact h

theorem strchr_isSome (s : List Char) (c : Char) :
    (strchr s c).isSome = true ↔ c = NUL ∨ c ∈ s := by
  induction s with
  | nil => simp [strchr]
  | cons x rest ih =>
    by_cases hx : x = c
    · simp [strchr, hx]
    · have hx2 : ¬ c = x := fun h => hx h.symm
      simp [strchr, hx, hx2, ih]

theorem strchr_isNone (s : List Char) (c : Char) :
    (strchr s c).isNone = true ↔ c ≠ NUL ∧ c ∉ s := by
  have h := strchr_isSome s c
  cases hs : strchr s c with
  | none =>
    rw [hs] at h
    simp only [Option.isSome_none, Bool.false_eq_true, false_iff, not_or] at h
    simpa using h
  | some n =>
    rw [hs] at h
    simp only [Option.isSome_some, true_iff] at h
    simp only [Option.isNone_some, Bool.false_eq_true, false_iff, not_and, not_not]
    intro hc
    exact h.resolve_left hc

theorem remove_char_eq_erase (s : List Char) (c : Char) : remove_char s c = s.erase c := by
  induction s with
  | nil => rfl
  | cons x rest ih =>
    by_cases hx : x = c
    · simp [remove_char, hx]
    · simp [remove_char, hx, ih, List.erase_cons]

theorem strcmp_eq_zero (a b : List Char) : strcmp a b = 0 ↔ a = b := by
  induction a generalizing b with
  | nil => cases b <;> simp [strcmp]
  | cons x as ih =>
    cases b with
    | nil => simp [strcmp]
    | cons y bs =>
      by_cases hxy : x = y
      · simp [strcmp, hxy, ih]
      · simp only [strcmp, hxy, if_false, List.cons.injEq, false_and, iff_false]
        split <;> omega

theorem strcmp_antisymm (a b : List Char) : strcmp a b = - strcmp b a := by
  induction a generalizing b with
  | nil => cases b <;> simp [strcmp]
  | cons x as ih =>
    cases b with
    | nil => simp [strcmp]
    | cons y bs =>
      by_cases hxy : x = y
      · simp [strcmp, hxy, ih bs]
      · have hyx : ¬ y = x := fun h => hxy h.symm
        have hne : x.toNat ≠ y.toNat := fun h => hxy (char_eq_of_toNat_eq h)
        simp only [strcmp, hxy, hyx, if_false]
        split <;> split <;> omega

theorem strcmp_range (a b : List Char) : strcmp a b = -1 ∨ strcmp a b = 0 ∨ strcmp a b = 1 := by
  induction a generalizing b with
  | nil => cases b <;> simp [strcmp]
  | cons x as ih =>
    cases b with
    | nil => simp [strcmp]
    | cons y bs =>
      simp only [strcmp]
      split
      · exact ih bs
      · split <;> simp

theorem strcmp_trans (a b c : List Char) (hab : strcmp a b ≤ 0) (hbc : strcmp b c ≤ 0) :
    strcmp a c ≤ 0 := by
  induction a generalizing b c with
  | nil => cases c <;> simp [strcmp]
  | cons x as ih =>
    cases b with
    | nil => simp [strcmp] at hab
    | cons y bs =>
      cases c with
      | nil => simp [strcmp] at hbc
      | cons z cs =>
        simp only [strcmp] at hab hbc ⊢
        by_cases hxy : x = y
        · subst hxy
          by_cases hxz : x = z
          · subst hxz
            simp only [if_true] at hab hbc ⊢
            exact ih bs cs hab hbc
          · simp only [hxz, if_false, if_true] at hab hbc ⊢
            exact hbc
        · simp only [hxy, if_false] at hab
          have hlt : x.toNat < y.toNat := by
            by_contra hn
            simp [hn] at hab
          by_cases hyz : y = z
          · subst hyz
            simp [hxy, hlt]
          · simp only [hyz, if_false] at hbc
            have hlt2 : y.toNat < z.toNat := by
              by_contra hn
              simp [hn] at hbc
            have hxz : ¬ x = z := by
              intro h
              subst h
              omega
            have hlt3 : x.toNat < z.toNat := by omega
            simp [hxz, hlt3]

theorem strcasecmp_eq_strcmp (a b : List Char) :
    strcasecmp a b = strcmp (a.map tolower) (b.map tolower) := by
  induction a generalizing b with
  | nil => cases b <;> simp [strcmp, strcasecmp]
  | cons x as ih =>
    cases b with
    | nil => simp [strcmp, strcasecmp]
    | cons y bs => simp [strcmp, strcasecmp, ih bs]

theorem strcasecmp_eq_zero (a b : List Char) :
    strcasecmp a b = 0 ↔ a.map tolower = b.map tolower := by
  rw [strcasecmp_eq_strcmp, strcmp_eq_zero]

theorem strcasecmp_antisymm (a b : List Char) : strcasecmp a b = - strcasecmp b a := by
  rw [strcasecmp_eq_strcmp, strcasecmp_eq_strcmp, strcmp_antisymm]

theorem strcasecmp_trans (a b c : List Char) (hab : strcasecmp a b ≤ 0)
    (hbc : strcasecmp b c ≤ 0) : strcasecmp a c ≤ 0 := by
  rw [strcasecmp_eq_strcmp] at hab hbc ⊢
  exact strcmp_trans _ _ _ hab hbc

/-! ## The matching loop -/

theorem foldl_matchStep_snd (W : List Char) (hW : NUL ∉ W) (ts : List Char) (ok : Bool) :
    (W.foldl matchStep (ts, ok)).2 = true ↔
      ok = true ∧ ∀ c, (W.map tolower).count c ≤ ts.count c := by
  induction W generalizing ts ok with
  | nil => simp
  | cons ch W ih =>
    have hch : ch ≠ NUL := fun h => hW (by simp [h])
    have hW2 : NUL ∉ W := fun h => hW (List.mem_cons_of_mem _ h)
    have hc0 : tolower ch ≠ NUL := fun h => hch (tolower_eq_NUL h)
    rw [List.foldl_cons]
    by_cases hmem : tolower ch ∈ ts
    · have hstep : matchStep (ts, ok) ch = (ts.erase (tolower ch), ok) := by
        have hn : ¬ (strchr ts (tolower ch)).isNone = true := by
          rw [strchr_isNone]
          exact fun h => h.2 hmem
        simp only [matchStep, hn, if_false, Bool.false_eq_true, remove_char_eq_erase]
      rw [hstep, ih hW2]
      have hpos : 0 < ts.count (tolower ch) := List.count_pos_iff.mpr hmem
      constructor
      · rintro ⟨hok, h⟩
        refine ⟨hok, fun c => ?_⟩
        have hc := h c
        rw [List.count_erase] at hc
        rw [List.map_cons, List.count_cons]
        by_cases hcc : tolower ch = c
        · subst hcc
          simp only [beq_self_eq_true, if_true] at hc ⊢
          omega
        · have hcc2 : ¬ c = tolower ch := fun h => hcc h.symm
          simp only [beq_iff_eq, hcc, hcc2, if_false] at hc ⊢
          omega
      · rintro ⟨hok, h⟩
        refine ⟨hok, fun c => ?_⟩
        have hc := h c
        rw [List.map_cons, List.count_cons] at hc
        rw [List.count_erase]
        by_cases hcc : tolower ch = c
        · subst hcc
          simp only [beq_self_eq_true, if_true] at hc ⊢
          omega
        · have hcc2 : ¬ c = tolower ch := fun h => hcc h.symm
          simp only [beq_iff_eq, hcc, hcc2, if_false] at hc ⊢
          omega
    · have hstep : matchStep (ts, ok) ch = (ts, false) := by
        have hn : (strchr ts (tolower ch)).isNone = true := by
          rw [strchr_isNone]
          exact ⟨hc0, hmem⟩
        simp only [matchStep, hn, if_true]
      rw [hstep, ih hW2]
      constructor
      · rintro ⟨hok, _⟩
        exact absurd hok (by simp)
      · rintro ⟨_, h⟩
        have hc := h (tolower ch)
        rw [List.map_cons, List.count_cons, List.count_eq_zero_of_not_mem hmem] at hc
        simp at hc

theorem matchLoop_newline (ts W : List Char) (nl : Char) :
    matchLoop ts (W ++ [nl]) = W.foldl matchStep (ts, true) := by
  simp [matchLoop, strlen]

/-! ## The collecting loop -/

theorem scanLine_of_not_fits (L : List Char) (h : ¬ strlen L + 1 ≤ vlaReserved (strlen L))
    (st : ScanState) (line : List Char) : scanLine L st line = none := by
  simp only [scanLine, strcpy, if_neg h]

theorem scanLine_of_fits (L : List Char) (hfit : strlen L + 1 ≤ vlaReserved (strlen L))
    (st : ScanState) (line : List Char) :
    (scanLine L st line).map (fun st => st.words) =
      if lineAccepted L line = true then
        (if st.words.length < WORDS_CAPACITY then some (st.words ++ [line]) else none)
      else some st.words := by
  simp only [scanLine, strcpy, if_pos hfit, lineAccepted]
  by_cases hlen : strlen line > 3
  · by_cases hm : (matchLoop L line).2 = true
    · by_cases hcap : st.words.length < WORDS_CAPACITY
      · simp [hlen, hm, hcap]
      · simp [hlen, hm, hcap]
    · simp [hlen, hm]
  · simp [hlen]

theorem scanFrom_words (L : List Char) (hfit : strlen L + 1 ≤ vlaReserved (strlen L)) :
    ∀ (lines : List (List Char)) (st : ScanState), st.words.length ≤ WORDS_CAPACITY →
      (scanFrom L st lines).map (fun st => st.words) =
        if st.words.length + (lines.filter (lineAccepted L)).length ≤ WORDS_CAPACITY
        then some (st.words ++ lines.filter (lineAccepted L)) else none
  | [], st, hst => by simp [scanFrom, hst]
  | line :: rest, st, hst => by
    have h := scanLine_of_fits L hfit st line
    rw [scanFrom]
    cases hs : scanLine L st line with
    | none =>
      rw [hs] at h
      by_cases hacc : lineAccepted L line = true
      · by_cases hcap : st.words.length < WORDS_CAPACITY
        · simp [hacc, hcap] at h
        · simp only [Option.map_none', List.filter_cons_of_pos hacc, List.length_cons]
          rw [if_neg (by omega)]
      · simp [hacc] at h
    | some st1 =>
      rw [hs] at h
      simp only [Option.map_some'] at h
      by_cases hacc : lineAccepted L line = true
      · by_cases hcap : st.words.length < WORDS_CAPACITY
        · simp only [hacc, hcap, if_true, Option.some.injEq] at h
          have ih := scanFrom_words L hfit rest st1 (by
            rw [h, List.length_append, List.length_singleton]
            omega)
          simp only [] at ih ⊢
          rw [ih, h, List.filter_cons_of_pos hacc]
          simp only [List.length_append, List.length_singleton, List.length_cons,
            List.append_assoc, List.singleton_append]
          split_ifs with h1 h2 h2
          · rfl
          · exact absurd h1 (by simp only [List.length_nil] at h2 ⊢; omega)
          · exact absurd h2 (by simp only [List.length_nil] at h1 ⊢; omega)
          · rfl
        · simp [hacc, hcap] at h
      · simp only [hacc, Bool.false_eq_true, if_false, Option.some.injEq] at h
        have ih := scanFrom_words L hfit rest st1 (by rw [h]; exact hst)
        simp only [] at ih ⊢
        rw [ih, h, List.filter_cons_of_neg hacc]

theorem collect_of_fits (letters : List Char) (lines : List (List Char))
    (hfit : strlen (change_case letters) + 1 ≤ vlaReserved (strlen (change_case letters))) :
    collect letters lines =
      if (lines.filter (lineAccepted (change_case letters))).length ≤ WORDS_CAPACITY
      then some (lines.filter (lineAccepted (change_case letters))) else none := by
  have h := scanFrom_words (change_case letters) hfit lines ⟨[], []⟩ (Nat.zero_le _)
  simp only [List.length_nil, Nat.zero_add, List.nil_append] at h
  exact h

theorem collect_of_not_fits (letters : List Char) (line : List Char) (rest : List (List Char))
    (h : ¬ strlen (change_case letters) + 1 ≤ vlaReserved (strlen (change_case letters))) :
    collect letters (line :: rest) = none := by
  simp only [collect, scan, scanFrom, scanLine_of_not_fits _ h, Option.map_none']

theorem collect_some_eq_filter {letters : List Char} {lines ms : List (List Char)}
    (h : collect letters lines = some ms) :
    ms = lines.filter (lineAccepted (change_case letters)) := by
  by_cases hfit :
      strlen (change_case letters) + 1 ≤ vlaReserved (strlen (change_case letters))
  · rw [collect_of_fits letters lines hfit] at h
    split at h
    · exact (Option.some.inj h).symm
    · exact absurd h (by simp)
  · cases lines with
    | nil =>
      simp only [collect, scan, scanFrom, Option.map_some', Option.some.injEq] at h
      rw [← h]
      rfl
    | cons line rest =>
      rw [collect_of_not_fits letters line rest hfit] at h
      exact absurd h (by simp)

/-! ## The comparison functions and `qsort` -/

theorem alpha_compare_consistent : ConsistentCompar alpha_compare := by
  refine ⟨fun a b => ?_, fun a b c => strcasecmp_trans a b c⟩
  unfold alpha_compare
  rw [strcasecmp_antisymm a b, Int.sign_neg]

theorem len_compare_le_iff (a b : List Char) :
    len_compare a b ≤ 0 ↔
      strlen a > strlen b ∨ (strlen a = strlen b ∧ strcasecmp a b ≤ 0) := by
  unfold len_compare
  by_cases h1 : strlen a > strlen b
  · simp [h1]
  · by_cases h2 : strlen b > strlen a
    · simp only [h1, h2, if_false, if_true, false_or]
      constructor
      · intro h
        omega
      · rintro ⟨h, _⟩
        omega
    · have h3 : strlen a = strlen b := by omega
      simp [h1, h2, h3]

theorem len_compare_consistent : ConsistentCompar len_compare := by
  constructor
  · intro a b
    unfold len_compare
    by_cases h1 : strlen a > strlen b
    · have h2 : ¬ strlen b > strlen a := by omega
      simp [h1, h2]
    · by_cases h2 : strlen b > strlen a
      · simp [h1, h2]
      · simp only [h1, h2, if_false]
        rw [strcasecmp_antisymm a b, Int.sign_neg]
  · intro a b c hab hbc
    rw [len_compare_le_iff] at hab hbc ⊢
    rcases hab with hab | ⟨hab, hab2⟩
    · rcases hbc with hbc | ⟨hbc, _⟩
      · left; omega
      · left; omega
    · rcases hbc with hbc | ⟨hbc, hbc2⟩
      · left; omega
      · right
        exact ⟨by omega, strcasecmp_trans a b c hab2 hbc2⟩

theorem consistent_total {compar : List Char → List Char → Int} (h : ConsistentCompar compar)
    (a b : List Char) : compar a b ≤ 0 ∨ compar b a ≤ 0 := by
  by_contra hn
  have h1 : 0 < compar a b := by omega
  have h2 : 0 < compar b a := by omega
  have h3 := h.1 a b
  rw [Int.sign_eq_one_of_pos h1, Int.sign_eq_one_of_pos h2] at h3
  omega

theorem insertionSort_contract {compar : List Char → List Char → Int}
    (h : ConsistentCompar compar) (words : List (List Char)) :
    (words.insertionSort (fun a b => compar a b ≤ 0)).Perm words ∧
      (words.insertionSort (fun a b => compar a b ≤ 0)).Pairwise (fun a b => compar a b ≤ 0) := by
  haveI : IsTotal (List Char) (fun a b => compar a b ≤ 0) := ⟨consistent_total h⟩
  haveI : IsTrans (List Char) (fun a b => compar a b ≤ 0) := ⟨h.2⟩
  exact ⟨List.perm_insertionSort _ words, List.sorted_insertionSort _ words⟩

theorem qsortInsertion_contract : QsortContract qsortInsertion :=
  fun _ h words => insertionSort_contract h words

theorem sort_array_alpha (qsort : Qsort) (words : List (List Char)) :
    sort_array qsort "-alpha".toList words = qsort alpha_compare words := by
  have h1 : strcmp "-alpha".toList "-alpha".toList = 0 := by decide
  have h2 : ¬ strcmp "-alpha".toList "-len".toList = 0 := by decide
  have h3 : ¬ strcmp "-alpha".toList "-longest".toList = 0 := by decide
  simp only [sort_array, h1, h2, h3, if_true, if_false]

theorem sort_array_len (qsort : Qsort) (words : List (List Char)) :
    sort_array qsort "-len".toList words = qsort len_compare words := by
  have h1 : ¬ strcmp "-len".toList "-alpha".toList = 0 := by decide
  have h2 : strcmp "-len".toList "-len".toList = 0 := by decide
  have h3 : ¬ strcmp "-len".toList "-longest".toList = 0 := by decide
  simp only [sort_array, h1, h2, h3, if_true, if_false]

theorem sort_array_longest (qsort : Qsort) (words : List (List Char)) :
    sort_array qsort "-longest".toList words = qsort len_compare words := by
  have h1 : ¬ strcmp "-longest".toList "-alpha".toList = 0 := by decide
  have h2 : ¬ strcmp "-longest".toList "-len".toList = 0 := by decide
  have h3 : strcmp "-longest".toList "-longest".toList = 0 := by decide
  simp only [sort_array, h1, h2, h3, if_true, if_false]

theorem sort_array_perm {qsort : Qsort} (hq : QsortContract qsort) (sort : List Char)
    (words : List (List Char)) : (sort_array qsort sort words).Perm words := by
  unfold sort_array
  have ha := fun w => (hq alpha_compare alpha_compare_consistent w).1
  have hl := fun w => (hq len_compare len_compare_consistent w).1
  split_ifs <;>
    first
      | exact List.Perm.refl _
      | exact ha _
      | exact hl _
      | exact (hl _).trans (ha _)
      | exact (hl _).trans (hl _)
      | exact (hl _).trans ((hl _).trans (ha _))

/-! ## The selection loop -/

theorem selectLoop_some (s first : List Char) (words : List (List Char)) :
    selectLoop (some s) first words =
      some (if strcmp s "-longest".toList = 0
        then words.filter (fun w => decide (strlen w = strlen first)) else words) := by
  induction words with
  | nil => simp [selectLoop]
  | cons w rest ih =>
    by_cases hs : strcmp s "-longest".toList = 0
    · by_cases hw : strlen w = strlen first
      · simp only [selectLoop, hs, hw, ih, if_true, Option.map_some', List.filter_cons,
          decide_True]
      · simp only [selectLoop, hs, hw, ih, if_true, if_false, List.filter_cons,
          decide_False, Bool.false_eq_true]
    · simp only [selectLoop, hs, ih, if_false, Option.map_some']

theorem selectLoop_none (first : List Char) (words : List (List Char)) :
    selectLoop none first words = if words = [] then some [] else none := by
  cases words <;> simp [selectLoop]

theorem le_maxLen {words : List (List Char)} {w : List Char} (h : w ∈ words) :
    strlen w ≤ maxLen words := by
  induction words with
  | nil => simp at h
  | cons x rest ih =>
    simp only [maxLen, List.map_cons, List.foldr_cons] at ih ⊢
    rcases List.mem_cons.mp h with h | h
    · subst h
      exact le_max_left _ _
    · exact le_trans (ih h) (le_max_right _ _)

theorem maxLen_le {words : List (List Char)} {n : Nat} (h : ∀ w ∈ words, strlen w ≤ n) :
    maxLen words ≤ n := by
  induction words with
  | nil => simp [maxLen]
  | cons x rest ih =>
    simp only [maxLen, List.map_cons, List.foldr_cons] at ih ⊢
    exact max_le (h x (List.mem_cons_self _ _))
      (ih (fun w hw => h w (List.mem_cons_of_mem _ hw)))

theorem maxLen_perm {xs ys : List (List Char)} (h : xs.Perm ys) : maxLen xs = maxLen ys :=
  le_antisymm (maxLen_le (fun _ hw => le_maxLen (h.mem_iff.mp hw)))
    (maxLen_le (fun _ hw => le_maxLen (h.mem_iff.mpr hw)))

theorem maxLen_sorted_cons {x : List Char} {rest : List (List Char)}
    (h : (x :: rest).Pairwise (fun a b => len_compare a b ≤ 0)) :
    maxLen (x :: rest) = strlen x := by
  apply le_antisymm
  · apply maxLen_le
    intro w hw
    rcases List.mem_cons.mp hw with hw | hw
    · rw [hw]
    · have h2 := (List.pairwise_cons.mp h).1 w hw
      rw [len_compare_le_iff] at h2
      omega
  · exact le_maxLen (List.mem_cons_self _ _)

/-! ## `check_match` as a whole -/

theorem check_match_of_collect {letters : List Char} {lines ms : List (List Char)}
    (h : collect letters lines = some ms) (qsort : Qsort) (sort inc : Option (List Char)) :
    check_match qsort ⟨sort, inc, letters⟩ lines = finish qsort ⟨sort, inc, letters⟩ ms := by
  simp only [check_match, h]

theorem check_match_of_collect_none {letters : List Char} {lines : List (List Char)}
    (h : collect letters lines = none) (qsort : Qsort) (sort inc : Option (List Char)) :
    check_match qsort ⟨sort, inc, letters⟩ lines = none := by
  simp only [check_match, h]

theorem finish_some (qsort : Qsort) (s : List Char) (inc : Option (List Char))
    (letters : List Char) (ms : List (List Char)) :
    finish qsort ⟨some s, inc, letters⟩ ms =
      some (print_words inc
          (if strcmp s "-longest".toList = 0
            then (sort_array qsort s ms).filter
              (fun w => decide (strlen w = strlen ((sort_array qsort s ms).headD [])))
            else sort_array qsort s ms),
        if (sort_array qsort s ms).length = 0 then E_NO_MATCHES else E_OK) := by
  simp only [finish, selectLoop_some]
  split_ifs <;> rfl

theorem finish_none (qsort : Qsort) (inc : Option (List Char))
    (letters : List Char) (ms : List (List Char)) :
    finish qsort ⟨none, inc, letters⟩ ms =
      if ms = [] then some ([], E_NO_MATCHES) else none := by
  simp only [finish, selectLoop_none]
  by_cases h : ms = []
  · rw [h]
    cases inc <;> simp [print_words]
  · simp [h]

/-! ## The claims -/

/-- C1: for a jumble `J` and an eligible dictionary line `W` followed by a
newline, the matching loop of `check_match` leaves `lettersPresent` true (and
the line is accepted) exactly when every character occurs in lower-cased `W`
at most as often as in lower-cased `J`. -/
theorem C1_match_iff_multiset_containment (J W : List Char) (hW : NUL ∉ W)
    (helig : strlen (W ++ ['\n']) > 3) :
    ((matchLoop (change_case J) (W ++ ['\n'])).2 = true ↔
      ∀ c, (change_case W).count c ≤ (change_case J).count c) ∧
    (lineAccepted (change_case J) (W ++ ['\n']) = true ↔
      ∀ c, (change_case W).count c ≤ (change_case J).count c) := by
  have h := foldl_matchStep_snd W hW (change_case J) true
  simp only [true_and] at h
  have h1 : (matchLoop (change_case J) (W ++ ['\n'])).2 = true ↔
      ∀ c, (change_case W).count c ≤ (change_case J).count c := by
    rw [matchLoop_newline]
    exact h
  refine ⟨h1, ?_⟩
  rw [← h1]
  simp only [lineAccepted, helig, decide_True, Bool.true_and]

/-- Witness for C1: jumble "pots" and the line "stop" with its newline. -/
theorem C1_witness :
    ((matchLoop (change_case "pots".toList) ("stop".toList ++ ['\n'])).2 = true ↔
      ∀ c, (change_case "stop".toList).count c ≤ (change_case "pots".toList).count c) ∧
    (lineAccepted (change_case "pots".toList) ("stop".toList ++ ['\n']) = true ↔
      ∀ c, (change_case "stop".toList).count c ≤ (change_case "pots".toList).count c) :=
  C1_match_iff_multiset_containment "pots".toList "stop".toList (by decide) (by decide)

/-- C2, as stated, fails: for jumble "dog" and the lines "do", "god", "dig"
(each with its newline) the three-letter word "god" is placed in the MatchSet
and `check_match` returns `E_OK`. -/
theorem C2_counterexample :
    collect "dog".toList ["do\n".toList, "god\n".toList, "dig\n".toList] =
      some ["god\n".toList] ∧
    strlen "god".toList ≤ 3 ∧
    check_match qsortInsertion ⟨some "-alpha".toList, none, "dog".toList⟩
      ["do\n".toList, "god\n".toList, "dig\n".toList] = some (["god\n".toList], E_OK) := by
  decide

/-- C2, amended: a line placed in the MatchSet has length greater than 3
counted with its line terminator, so a word followed by a newline needs only
three characters; for jumble "dog" and the lines "do", "god", "dig" the
MatchSet is exactly "god" with its newline and `check_match`, run with any
sort string, prints it and returns `E_OK`. -/
theorem C2_stored_line_longer_than_three (qsort : Qsort) (hq : QsortContract qsort)
    (J : List Char) (dict ms : List (List Char)) (hms : collect J dict = some ms)
    (w : List Char) (hw : w ∈ ms) (s : List Char) :
    3 < strlen w ∧
    (∀ W, w = W ++ ['\n'] → 3 ≤ strlen W) ∧
    collect "dog".toList ["do\n".toList, "god\n".toList, "dig\n".toList] =
      some ["god\n".toList] ∧
    check_match qsort ⟨some s, none, "dog".toList⟩
      ["do\n".toList, "god\n".toList, "dig\n".toList] = some (["god\n".toList], E_OK) := by
  have hlen : 3 < strlen w := by
    rw [collect_some_eq_filter hms, List.mem_filter] at hw
    have h2 := hw.2
    simp only [lineAccepted, Bool.and_eq_true, decide_eq_true_eq] at h2
    exact h2.1
  have hcol : collect "dog".toList ["do\n".toList, "god\n".toList, "dig\n".toList]
      = some ["god\n".toList] := by decide
  refine ⟨hlen, ?_, hcol, ?_⟩
  · intro W hW
    rw [hW] at hlen
    simp only [strlen, List.length_append, List.length_singleton] at hlen ⊢
    omega
  · rw [check_match_of_collect hcol, finish_some]
    have hp := sort_array_perm hq s ["god\n".toList]
    rw [List.perm_singleton] at hp
    rw [hp]
    by_cases hs : strcmp s "-longest".toList = 0
    · simp only [hs, if_true]
      decide
    · simp only [hs, if_false]
      decide

/-- Witness for C2 (amended): insertion sort for `qsort`, jumble "dog", the
stored line "god" with its newline, sort string "-len". -/
theorem C2_witness :
    3 < strlen "god\n".toList ∧
    (∀ W, "god\n".toList = W ++ ['\n'] → 3 ≤ strlen W) ∧
    collect "dog".toList ["do\n".toList, "god\n".toList, "dig\n".toList] =
      some ["god\n".toList] ∧
    check_match qsortInsertion ⟨some "-len".toList, none, "dog".toList⟩
      ["do\n".toList, "god\n".toList, "dig\n".toList] = some (["god\n".toList], E_OK) :=
  C2_stored_line_longer_than_three qsortInsertion qsortInsertion_contract "dog".toList
    ["do\n".toList, "god\n".toList, "dig\n".toList] ["god\n".toList] (by decide)
    "god\n".toList (by decide) "-len".toList

/-- C3 fails on the code: for jumble "abc" every line "cab" is accepted; with
100000 such lines the array `words` is full and holds them all, and the next
accepted line is stored at `words[100000]`, past the end of the array, so
for 100001 lines the loop has no defined result and the MatchSet is not the
filtered dictionary. A jumble of 16 letters fills the storage of `toSearch`,
the copy at the top of the loop body writes its terminator past it, and the
loop has no defined result on the first line read. -/
theorem C3_store_past_words_and_toSearch :
    lineAccepted (change_case "abc".toList) "cab\n".toList = true ∧
    collect "abc".toList (List.replicate 100000 "cab\n".toList) =
      some (List.replicate 100000 "cab\n".toList) ∧
    collect "abc".toList (List.replicate 100001 "cab\n".toList) = none ∧
    lineAccepted (change_case "abcdefghijklmnop".toList) "cab\n".toList = true ∧
    collect "abcdefghijklmnop".toList ["cab\n".toList] = none := by
  have hacc : lineAccepted (change_case "abc".toList) "cab\n".toList = true := by decide
  have hfit : strlen (change_case "abc".toList) + 1 ≤
      vlaReserved (strlen (change_case "abc".toList)) := by decide
  refine ⟨hacc, ?_, ?_, by decide, by decide⟩
  · rw [collect_of_fits _ _ hfit, List.filter_replicate_of_pos hacc, List.length_replicate,
      if_pos (by decide)]
  · rw [collect_of_fits _ _ hfit, List.filter_replicate_of_pos hacc, List.length_replicate,
      if_neg (by decide)]

/-- C4, as stated, fails: the word "Cats" contains the required letter "c"
when case is ignored, yet `print_words` does not emit it, and the whole run
on jumble "cats" prints nothing. -/
theorem C4_counterexample :
    print_words (some "c".toList) ["Cats\n".toList] = [] ∧
    tolower 'c' ∈ change_case "Cats\n".toList ∧
    check_match qsortInsertion ⟨some "-alpha".toList, some "c".toList, "cats".toList⟩
      ["Cats\n".toList] = some ([], E_OK) := by
  decide

/-- C4, amended: for a required letter `r`, `print_words` emits a word exactly
when it is in the selected sequence and contains `r` itself, in the case in
which `r` was given; the emitted words are the selected sequence filtered by
that test, so they keep their relative order. -/
theorem C4_print_words_exact_letter (r : Char) (hr : r ≠ NUL) (words : List (List Char)) :
    print_words (some [r]) words = words.filter (fun w => decide (r ∈ w)) ∧
    (∀ w, w ∈ print_words (some [r]) words ↔ w ∈ words ∧ r ∈ w) ∧
    (print_words (some [r]) words).Sublist words := by
  have h : print_words (some [r]) words = words.filter (fun w => decide (r ∈ w)) := by
    simp only [print_words, List.headD_cons]
    congr 1
    funext w
    rw [Bool.eq_iff_iff, strchr_isSome, decide_eq_true_eq]
    exact ⟨fun h => h.resolve_left hr, Or.inr⟩
  refine ⟨h, ?_, ?_⟩
  · intro w
    rw [h, List.mem_filter, decide_eq_true_eq]
  · rw [h]
    exact List.filter_sublist words

/-- Witness for C4 (amended): required letter "c" and the selected words
"Cats", "cats", "tass". -/
theorem C4_witness :
    print_words (some ['c']) ["Cats\n".toList, "cats\n".toList, "tass\n".toList] =
      ["Cats\n".toList, "cats\n".toList, "tass\n".toList].filter (fun w => decide ('c' ∈ w)) ∧
    (∀ w, w ∈ print_words (some ['c']) ["Cats\n".toList, "cats\n".toList, "tass\n".toList] ↔
      w ∈ ["Cats\n".toList, "cats\n".toList, "tass\n".toList] ∧ 'c' ∈ w) ∧
    (print_words (some ['c']) ["Cats\n".toList, "cats\n".toList, "tass\n".toList]).Sublist
      ["Cats\n".toList, "cats\n".toList, "tass\n".toList] :=
  C4_print_words_exact_letter 'c' (by decide)
    ["Cats\n".toList, "cats\n".toList, "tass\n".toList]

/-- C5 fails on the code: for jumble "cats", the line "cats", required letter
"z" and no sort option, the MatchSet is not empty and "z" is in none of its
words, but the copy loop calls `strcmp` on the null `args.sort` and the run
has no defined result, where the claim has empty output and `E_OK`. With the
sort option "-alpha" the same input prints nothing and returns `E_OK`, and an
empty MatchSet returns `E_NO_MATCHES`. -/
theorem C5_null_sort_with_required_letter :
    collect "cats".toList ["cats\n".toList] = some ["cats\n".toList] ∧
    'z' ∉ "cats\n".toList ∧
    check_match qsortInsertion ⟨none, some ['z'], "cats".toList⟩ ["cats\n".toList] = none ∧
    check_match qsortInsertion ⟨some "-alpha".toList, some ['z'], "cats".toList⟩
      ["cats\n".toList] = some ([], E_OK) ∧
    check_match qsortInsertion ⟨none, some ['z'], "cats".toList⟩ ["dogs\n".toList] =
      some ([], E_NO_MATCHES) := by
  decide

/-- C6: with sort string "-longest" the selection loop of `check_match`
returns, from the sorted MatchSet, exactly the words whose length is the
greatest length in the MatchSet: every retained word has that length, every
word of that length is retained as often as it occurs, and an empty MatchSet
gives an empty selection. -/
theorem C6_longest_keeps_max_length (qsort : Qsort) (hq : QsortContract qsort)
    (ms : List (List Char)) :
    ∃ sel, selectLoop (some "-longest".toList)
        ((sort_array qsort "-longest".toList ms).headD [])
        (sort_array qsort "-longest".toList ms) = some sel ∧
      sel = (sort_array qsort "-longest".toList ms).filter
        (fun w => decide (strlen w = maxLen ms)) ∧
      (∀ w ∈ sel, strlen w = maxLen ms) ∧
      (∀ w ∈ ms, strlen w = maxLen ms → w ∈ sel) ∧
      sel.Perm (ms.filter (fun w => decide (strlen w = maxLen ms))) ∧
      (ms = [] → sel = []) := by
  have hperm := sort_array_perm hq "-longest".toList ms
  have hsorted : (sort_array qsort "-longest".toList ms).Pairwise
      (fun a b => len_compare a b ≤ 0) := by
    rw [sort_array_longest]
    exact (hq len_compare len_compare_consistent ms).2
  have hsel : selectLoop (some "-longest".toList)
      ((sort_array qsort "-longest".toList ms).headD [])
      (sort_array qsort "-longest".toList ms) =
      some ((sort_array qsort "-longest".toList ms).filter
        (fun w => decide (strlen w = maxLen ms))) := by
    rw [selectLoop_some, if_pos (by decide)]
    cases hso : sort_array qsort "-longest".toList ms with
    | nil => rfl
    | cons x rest =>
      rw [hso] at hsorted hperm
      rw [List.headD_cons, ← maxLen_perm hperm, maxLen_sorted_cons hsorted]
  refine ⟨_, hsel, rfl, ?_, ?_, ?_, ?_⟩
  · intro w hw
    simpa using (List.mem_filter.mp hw).2
  · intro w hw hlen
    exact List.mem_filter.mpr ⟨hperm.mem_iff.mpr hw, by simpa using hlen⟩
  · exact hperm.filter _
  · intro hms
    subst hms
    have h2 := hperm.eq_nil
    rw [h2]
    rfl

/-- Witness for C6: insertion sort for `qsort` and the MatchSet "pot",
"pots", "stop". -/
theorem C6_witness :
    ∃ sel, selectLoop (some "-longest".toList)
        ((sort_array qsortInsertion "-longest".toList
          ["pot\n".toList, "pots\n".toList, "stop\n".toList]).headD [])
        (sort_array qsortInsertion "-longest".toList
          ["pot\n".toList, "pots\n".toList, "stop\n".toList]) = some sel ∧
      sel = (sort_array qsortInsertion "-longest".toList
          ["pot\n".toList, "pots\n".toList, "stop\n".toList]).filter
        (fun w => decide (strlen w = maxLen ["pot\n".toList, "pots\n".toList, "stop\n".toList])) ∧
      (∀ w ∈ sel, strlen w = maxLen ["pot\n".toList, "pots\n".toList, "stop\n".toList]) ∧
      (∀ w ∈ ["pot\n".toList, "pots\n".toList, "stop\n".toList],
        strlen w = maxLen ["pot\n".toList, "pots\n".toList, "stop\n".toList] → w ∈ sel) ∧
      sel.Perm (["pot\n".toList, "pots\n".toList, "stop\n".toList].filter
        (fun w => decide (strlen w = maxLen ["pot\n".toList, "pots\n".toList, "stop\n".toList]))) ∧
      (["pot\n".toList, "pots\n".toList, "stop\n".toList] = [] → sel = []) :=
  C6_longest_keeps_max_length qsortInsertion qsortInsertion_contract
    ["pot\n".toList, "pots\n".toList, "stop\n".toList]

/-- C7: with sort string "-len", any two adjacent elements `x`, `y` of the
array after `sort_array` (`x` first) satisfy: `x` is strictly longer than
`y`, or they have equal length and `strcasecmp x y` is at most 0. -/
theorem C7_len_adjacent_order (qsort : Qsort) (hq : QsortContract qsort)
    (ms : List (List Char)) :
    List.Chain'
      (fun x y => strlen x > strlen y ∨ (strlen x = strlen y ∧ strcasecmp x y ≤ 0))
      (sort_array qsort "-len".toList ms) := by
  rw [sort_array_len]
  have h := (hq len_compare len_compare_consistent ms).2
  exact (List.Pairwise.chain' h).imp (fun {a b} hab => (len_compare_le_iff a b).mp hab)

/-- Witness for C7: insertion sort for `qsort` and the MatchSet "pot", "stop",
"Pots". -/
theorem C7_witness :
    List.Chain'
      (fun x y => strlen x > strlen y ∨ (strlen x = strlen y ∧ strcasecmp x y ≤ 0))
      (sort_array qsortInsertion "-len".toList
        ["pot\n".toList, "stop\n".toList, "Pots\n".toList]) :=
  C7_len_adjacent_order qsortInsertion qsortInsertion_contract
    ["pot\n".toList, "stop\n".toList, "Pots\n".toList]

/-- C8: with sort string "-alpha", any two adjacent elements `x`, `y` of the
array after `sort_array` (`x` first) satisfy `strcasecmp x y ≤ 0`. -/
theorem C8_alpha_adjacent_order (qsort : Qsort) (hq : QsortContract qsort)
    (ms : List (List Char)) :
    List.Chain' (fun x y => strcasecmp x y ≤ 0) (sort_array qsort "-alpha".toList ms) := by
  rw [sort_array_alpha]
  exact List.Pairwise.chain' (hq alpha_compare alpha_compare_consistent ms).2

/-- Witness for C8: insertion sort for `qsort` and the MatchSet "stop", "Pots",
"opts". -/
theorem C8_witness :
    List.Chain' (fun x y => strcasecmp x y ≤ 0)
      (sort_array qsortInsertion "-alpha".toList
        ["stop\n".toList, "Pots\n".toList, "opts\n".toList]) :=
  C8_alpha_adjacent_order qsortInsertion qsortInsertion_contract
    ["stop\n".toList, "Pots\n".toList, "opts\n".toList]

/-! ## Letter case and the matcher -/

theorem tolower_toupper (c : Char) : tolower (toupper c) = tolower c := by
  unfold toupper
  split
  · rename_i h
    have h1 : (Char.ofNat (c.toNat - 32)).toNat = c.toNat - 32 :=
      toNat_ofNat_of_lt _ (by omega)
    have h2 : tolower c = c := by
      unfold tolower
      rw [if_neg (by omega)]
    rw [h2]
    unfold tolower
    rw [h1, if_pos (by omega)]
    have h3 : c.toNat - 32 + 32 = c.toNat := by omega
    rw [h3, Char.ofNat_toNat]
  · rfl

theorem change_case_map_toupper (s : List Char) : change_case (s.map toupper) = change_case s := by
  simp only [change_case, List.map_map]
  congr 1
  funext c
  exact tolower_toupper c

theorem matchStep_congr (st : List Char × Bool) {ch ch2 : Char}
    (h : tolower ch = tolower ch2) : matchStep st ch = matchStep st ch2 := by
  simp only [matchStep, h]

theorem foldl_matchStep_congr (W W2 : List Char) (h : W.map tolower = W2.map tolower)
    (st : List Char × Bool) : W.foldl matchStep st = W2.foldl matchStep st := by
  induction W generalizing W2 st with
  | nil =>
    cases W2 with
    | nil => rfl
    | cons _ _ => simp at h
  | cons ch W ih =>
    cases W2 with
    | nil => simp at h
    | cons ch2 W2 =>
      simp only [List.map_cons, List.cons.injEq] at h
      rw [List.foldl_cons, List.foldl_cons, matchStep_congr st h.1]
      exact ih W2 h.2 _

theorem matchLoop_congr (ts : List Char) {line line2 : List Char}
    (h : change_case line = change_case line2) : matchLoop ts line = matchLoop ts line2 := by
  have hlen : strlen line = strlen line2 := by
    have h2 := congrArg List.length h
    simpa [change_case, strlen] using h2
  unfold matchLoop
  apply foldl_matchStep_congr
  rw [hlen, List.map_take, List.map_take]
  exact congrArg _ h

theorem lineAccepted_congr (ts : List Char) {line line2 : List Char}
    (h : change_case line = change_case line2) : lineAccepted ts line = lineAccepted ts line2 := by
  have hlen : strlen line = strlen line2 := by
    have h2 := congrArg List.length h
    simpa [change_case, strlen] using h2
  simp only [lineAccepted, matchLoop_congr ts h, hlen]

/-! ## Selection on an array sorted by length -/

theorem filter_eq_takeWhile_of_sorted (n : Nat) :
    ∀ (l : List (List Char)), l.Pairwise (fun a b => len_compare a b ≤ 0) →
      (∀ w ∈ l, strlen w ≤ n) →
      l.filter (fun w => decide (strlen w = n)) = l.takeWhile (fun w => decide (strlen w = n))
  | [], _, _ => rfl
  | x :: rest, hs, hn => by
    have hrest := fun w hw => hn w (List.mem_cons_of_mem _ hw)
    have ih := filter_eq_takeWhile_of_sorted n rest (List.pairwise_cons.mp hs).2 hrest
    by_cases hx : strlen x = n
    · rw [List.filter_cons_of_pos (by simpa using hx),
        List.takeWhile_cons_of_pos (by simpa using hx), ih]
    · rw [List.filter_cons_of_neg (by simpa using hx),
        List.takeWhile_cons_of_neg (by simpa using hx), List.filter_eq_nil_iff]
      intro w hw
      have h1 := (List.pairwise_cons.mp hs).1 w hw
      rw [len_compare_le_iff] at h1
      have h2 := hn x (List.mem_cons_self _ _)
      simp only [decide_eq_true_eq]
      omega

theorem sorted_head_maxLen {l : List (List Char)}
    (hs : l.Pairwise (fun a b => len_compare a b ≤ 0)) : strlen (l.headD []) = maxLen l := by
  cases l with
  | nil => rfl
  | cons x rest => rw [List.headD_cons, maxLen_sorted_cons hs]

theorem sorted_pair_unique {a b : List Char} (hba : ¬ len_compare b a ≤ 0)
    {l : List (List Char)} (hp : l.Perm [a, b])
    (hs : l.Pairwise (fun x y => len_compare x y ≤ 0)) : l = [a, b] := by
  have hlen := hp.length_eq
  match l, hlen with
  | [x, y], _ =>
    have hxy : len_compare x y ≤ 0 := by
      simpa using hs
    have hx : x = a ∨ x = b := by
      simpa using hp.mem_iff.mp (List.mem_cons_self _ _)
    have hy : y = a ∨ y = b := by
      simpa using hp.mem_iff.mp (List.mem_cons_of_mem _ (List.mem_cons_self _ _))
    have ha : a = x ∨ a = y := by
      simpa using hp.mem_iff.mpr (List.mem_cons_self _ _)
    have hb : b = x ∨ b = y := by
      simpa using hp.mem_iff.mpr (List.mem_cons_of_mem _ (List.mem_cons_self _ _))
    rcases hx with hx | hx <;> rcases hy with hy | hy <;> subst hx <;> subst hy
    · rcases hb with hb | hb <;> exact absurd (hb ▸ hxy) hba
    · rfl
    · exact absurd hxy hba
    · rcases ha with ha | ha <;> exact absurd (ha ▸ hxy) hba

/-! ## Facts about `parse_args` -/

theorem check_letters_all : ∀ (l : List Char), check_letters l = true → ∀ c ∈ l, isalpha c = true
  | [], _, c, hc => by simp at hc
  | x :: rest, h, c, hc => by
    unfold check_letters at h
    by_cases hx : isalpha x = true
    · simp only [hx, Bool.not_true, Bool.false_eq_true, if_false] at h
      rcases List.mem_cons.mp hc with hc | hc
      · rw [hc]
        exact hx
      · exact check_letters_all rest h c hc
    · simp [hx] at h

theorem check_letters_length_ge {l : List Char} (h : check_letters_length l = true) :
    3 ≤ strlen l := by
  unfold check_letters_length at h
  by_contra hn
  simp [show strlen l < 3 by omega] at h

theorem check_include_valid {inc : List Char} (h : check_include inc = true) :
    ∃ r, inc = [r] ∧ isalpha r = true := by
  unfold check_include at h
  by_cases hl : strlen inc = 1
  · match inc, hl with
    | [r], _ =>
      refine ⟨r, rfl, ?_⟩
      by_contra hr
      simp [strlen, hr] at h
  · simp [hl] at h

theorem parse_loop_ok : ∀ (rest : List (List Char)) (sortCount incluCount : Nat)
    (slots out : ArgSlots), incluCount ≤ 1 →
    parse_loop rest sortCount incluCount slots = some (E_OK, out) →
    (∃ l, out.letters = some l ∧ 3 ≤ strlen l ∧ ∀ c ∈ l, isalpha c = true) ∧
    (out.include = slots.include ∨ ∃ r, out.include = some [r] ∧ isalpha r = true)
  | [], _, _, _, _, _, h => by simp [parse_loop] at h
  | arg :: rest, sortCount, incluCount, slots, out, hle, h => by
    rw [parse_loop] at h
    by_cases hdash : arg.headD NUL = '-'
    · simp only [hdash, if_true] at h
      by_cases hsort : (check_if_sort arg && decide (sortCount = 0)) = true
      · simp only [hsort, if_true] at h
        have ih := parse_loop_ok rest _ _ _ out hle h
        exact ih
      · simp only [hsort, if_false, Bool.false_eq_true] at h
        by_cases hinc : (check_if_include arg && decide (incluCount = 0)) = true
        · simp only [hinc, if_true] at h
          cases hnext : rest.head? with
          | none => simp [hnext] at h
          | some next =>
            simp only [hnext] at h
            by_cases hci : check_include next = true
            · simp only [hci, if_true] at h
              have hz : incluCount = 0 := by
                simp only [Bool.and_eq_true, decide_eq_true_eq] at hinc
                exact hinc.2
              have ih := parse_loop_ok rest _ _ _ out (by omega) h
              refine ⟨ih.1, Or.inr ?_⟩
              rcases ih.2 with h2 | h2
              · obtain ⟨r, hr, hr2⟩ := check_include_valid hci
                exact ⟨r, by rw [h2, hr], hr2⟩
              · exact h2
            · simp [hci] at h
        · simp [hinc] at h
    · simp only [hdash, if_false] at h
      by_cases hic : incluCount = 0
      · subst hic
        by_cases hlen : check_letters_length arg = true
        · by_cases hlet : check_letters arg = true
          · have hvalid : ∃ l, some arg = some l ∧ 3 ≤ strlen l ∧ ∀ c ∈ l, isalpha c = true :=
              ⟨arg, rfl, check_letters_length_ge hlen, check_letters_all arg hlet⟩
            cases hnext : rest.head? with
            | none =>
              simp [hlen, hlet, hnext] at h
              subst h
              exact ⟨hvalid, Or.inl rfl⟩
            | some next =>
              by_cases htail : rest[1]?.isSome = true
              · simp [hlen, hlet, hnext, htail] at h
              · simp [hlen, hlet, hnext, htail] at h
                subst h
                exact ⟨hvalid, Or.inl rfl⟩
          · simp [hlen, hlet] at h
        · simp [hlen] at h
      · by_cases hone : incluCount = 1
        · subst hone
          simp at h
          have ih := parse_loop_ok rest _ _ _ out (by omega) h
          exact ih
        · omega

/-! ## `remove_char` on the buffer agrees with `remove_char` on the string -/

theorem remove_char_scan_eq (c : Char) (tail : List Char) :
    ∀ (post pre : List Char) (fuel : Nat), post.length ≤ fuel →
      remove_char_scan (pre ++ post ++ tail) c (pre.length + post.length) fuel pre.length =
        pre.length + (post.takeWhile (fun x => decide (x ≠ c))).length
  | [], pre, fuel, _ => by
    cases fuel with
    | zero => simp [remove_char_scan]
    | succ f => simp [remove_char_scan]
  | x :: post, pre, fuel, hf => by
    cases fuel with
    | zero => simp at hf
    | succ f =>
      have hget : (pre ++ x :: post ++ tail).getD pre.length NUL = x := by
        rw [List.append_assoc, List.getD_append_right _ _ _ _ (le_refl _)]
        simp
      rw [remove_char_scan, hget]
      by_cases hx : x = c
      · simp [hx]
      · have hlt : pre.length < pre.length + (x :: post).length := by simp
        rw [if_pos ⟨hlt, hx⟩]
        have ih := remove_char_scan_eq c tail post (pre ++ [x]) f (by simpa using hf)
        have e1 : (pre ++ [x]).length = pre.length + 1 := by simp
        have e2 : pre ++ [x] ++ post ++ tail = pre ++ x :: post ++ tail := by simp
        have e3 : pre.length + (x :: post).length = pre.length + 1 + post.length := by
          simp only [List.length_cons]
          omega
        rw [e1, e2] at ih
        rw [e3, ih, List.takeWhile_cons_of_pos (by simpa using hx), List.length_cons]
        omega

theorem remove_char_shift_stop (len fuel i : Nat) (buf : List Char) (h : len ≤ i) :
    remove_char_shift len fuel i buf = buf := by
  cases fuel with
  | zero => rfl
  | succ f => rw [remove_char_shift, if_neg (by omega)]

theorem remove_char_shift_eq (len : Nat) (z : Char) :
    ∀ (mid pre : List Char) (x : Char) (fuel : Nat),
      pre.length + mid.length + 1 = len → mid.length + 1 ≤ fuel →
      remove_char_shift len fuel pre.length (pre ++ x :: (mid ++ [z])) = pre ++ mid ++ [z, z]
  | [], pre, x, fuel, hlen, hf => by
    cases fuel with
    | zero => simp at hf
    | succ f =>
      have hget : (pre ++ x :: ([] ++ [z])).getD (pre.length + 1) NUL = z := by
        rw [List.getD_append_right _ _ _ _ (by omega)]
        simp
      have hset : (pre ++ x :: ([] ++ [z])).set pre.length z = pre ++ [z, z] := by
        rw [List.set_append_right _ _ (le_refl _)]
        simp
      rw [remove_char_shift, if_pos (by simp at hlen; omega), hget, hset,
        remove_char_shift_stop _ _ _ _ (by simp at hlen; omega)]
      simp
  | y :: mid, pre, x, fuel, hlen, hf => by
    cases fuel with
    | zero => simp at hf
    | succ f =>
      have hget : (pre ++ x :: (y :: mid ++ [z])).getD (pre.length + 1) NUL = y := by
        rw [List.getD_append_right _ _ _ _ (by omega)]
        simp
      have hset : (pre ++ x :: (y :: mid ++ [z])).set pre.length y =
          (pre ++ [y]) ++ y :: (mid ++ [z]) := by
        rw [List.set_append_right _ _ (le_refl _)]
        simp
      rw [remove_char_shift, if_pos (by simp at hlen; omega), hget, hset]
      have ih := remove_char_shift_eq len z mid (pre ++ [y]) y f
        (by simp at hlen ⊢; omega) (by simp at hf ⊢; omega)
      simp only [List.length_append, List.length_singleton] at ih
      rw [ih]
      simp

theorem cstring_append_NUL (s tail : List Char) (hs : NUL ∉ s) :
    cstring (s ++ NUL :: tail) = s := by
  unfold cstring
  rw [List.takeWhile_append_of_pos, List.takeWhile_cons_of_neg (by simp)]
  · simp
  · intro a ha
    simp only [ne_eq, decide_eq_true_eq]
    exact fun h => hs (h ▸ ha)

theorem remove_char_split (c : Char) : ∀ (s : List Char),
    remove_char s c =
      s.takeWhile (fun x => decide (x ≠ c)) ++ (s.dropWhile (fun x => decide (x ≠ c))).tail
  | [] => rfl
  | x :: rest => by
    by_cases hx : x = c
    · simp [remove_char, hx]
    · simp [remove_char, hx, remove_char_split c rest]

theorem remove_char_buffer_eq (s : List Char) (c : Char) (hs : NUL ∉ s) :
    remove_char_buffer (s ++ [NUL]) c =
      remove_char s c ++ (if c ∈ s then [NUL, NUL] else [NUL]) := by
  have hlen : strlen (cstring (s ++ [NUL])) = s.length := by
    rw [cstring_append_NUL s [] hs]
    rfl
  have hscan := remove_char_scan_eq c [NUL] s [] s.length (le_refl _)
  simp only [List.nil_append, List.length_nil, Nat.zero_add] at hscan
  have hsplit := List.takeWhile_append_dropWhile (fun x => decide (x ≠ c)) s
  simp only [remove_char_buffer, hlen, hscan]
  rw [remove_char_split]
  cases hd : s.dropWhile (fun x => decide (x ≠ c)) with
  | nil =>
    rw [hd, List.append_nil] at hsplit
    have hc : c ∉ s := by
      intro hmem
      have h2 := List.dropWhile_eq_nil_iff.mp hd c hmem
      simp at h2
    rw [hsplit, remove_char_shift_stop _ _ _ _ (le_refl _), if_neg hc]
    simp
  | cons y post =>
    have hy : y = c := by
      have h2 := List.head?_dropWhile_not (fun x => decide (x ≠ c)) s
      rw [hd] at h2
      simpa using h2
    subst hy
    rw [hd] at hsplit
    have hc : y ∈ s := by
      rw [← hsplit]
      simp
    have hbuf : s ++ [NUL] =
        s.takeWhile (fun x => decide (x ≠ y)) ++ y :: (post ++ [NUL]) := by
      conv_lhs => rw [← hsplit]
      simp
    have hl : (s.takeWhile (fun x => decide (x ≠ y))).length + post.length + 1 = s.length := by
      conv_rhs => rw [← hsplit]
      simp
      omega
    rw [if_pos hc]
    conv_lhs => rw [hbuf]
    rw [remove_char_shift_eq s.length NUL post _ y s.length hl (by omega)]
    simp

/-! ## The loop of the source and the short-circuit matcher -/

theorem foldl_matchStep_false (W ts : List Char) : (W.foldl matchStep (ts, false)).2 = false := by
  induction W generalizing ts with
  | nil => rfl
  | cons ch W ih =>
    rw [List.foldl_cons]
    unfold matchStep
    split
    · exact ih _
    · exact ih _

theorem foldl_matchStep_eq_specMatches (W : List Char) (hW : NUL ∉ W) (ts : List Char) :
    (W.foldl matchStep (ts, true)).2 = specMatches ts W := by
  induction W generalizing ts with
  | nil => rfl
  | cons ch W ih =>
    have hch : ch ≠ NUL := fun h => hW (by simp [h])
    have hW2 : NUL ∉ W := fun h => hW (List.mem_cons_of_mem _ h)
    have hc0 : tolower ch ≠ NUL := fun h => hch (tolower_eq_NUL h)
    rw [List.foldl_cons, specMatches]
    by_cases hmem : tolower ch ∈ ts
    · have hn : ¬ (strchr ts (tolower ch)).isNone = true := by
        rw [strchr_isNone]
        exact fun h => h.2 hmem
      have hcount : ¬ ts.count (tolower ch) = 0 := by
        have := List.count_pos_iff.mpr hmem
        omega
      simp only [matchStep, hn, if_false, Bool.false_eq_true, remove_char_eq_erase, hcount]
      exact ih hW2 _
    · have hn : (strchr ts (tolower ch)).isNone = true := by
        rw [strchr_isNone]
        exact ⟨hc0, hmem⟩
      simp only [matchStep, hn, if_true, List.count_eq_zero_of_not_mem hmem]
      exact foldl_matchStep_false W ts

/-! ## The claims, continued -/

/-- C11: the verdict of the matcher does not depend on letter case. When `J2`
differs from the jumble `J` and `line2` from the dictionary line `line` only
in the case of letters (they lower-case to the same strings), the matching
loop leaves the same `lettersPresent` and the line gets the same verdict; in
particular upper-casing the jumble or the line changes nothing. -/
theorem C11_match_case_invariant (J J2 line line2 : List Char)
    (hJ : change_case J = change_case J2) (hline : change_case line = change_case line2) :
    (matchLoop (change_case J) line).2 = (matchLoop (change_case J2) line2).2 ∧
    lineAccepted (change_case J) line = lineAccepted (change_case J2) line2 ∧
    lineAccepted (change_case J) (line.map toupper) = lineAccepted (change_case J) line ∧
    lineAccepted (change_case (J.map toupper)) line = lineAccepted (change_case J) line := by
  refine ⟨?_, ?_, ?_, ?_⟩
  · rw [hJ, matchLoop_congr _ hline]
  · rw [hJ, lineAccepted_congr _ hline]
  · exact lineAccepted_congr _ (change_case_map_toupper line)
  · rw [change_case_map_toupper]

/-- Witness for C11: jumble "pots" against "PoTs", line "Stop" against "sTOP",
each line with its newline. -/
theorem C11_witness :
    (matchLoop (change_case "pots".toList) "Stop\n".toList).2 =
      (matchLoop (change_case "PoTs".toList) "sTOP\n".toList).2 ∧
    lineAccepted (change_case "pots".toList) "Stop\n".toList =
      lineAccepted (change_case "PoTs".toList) "sTOP\n".toList ∧
    lineAccepted (change_case "pots".toList) ("Stop\n".toList.map toupper) =
      lineAccepted (change_case "pots".toList) "Stop\n".toList ∧
    lineAccepted (change_case ("pots".toList.map toupper)) "Stop\n".toList =
      lineAccepted (change_case "pots".toList) "Stop\n".toList :=
  C11_match_case_invariant "pots".toList "PoTs".toList "Stop\n".toList "sTOP\n".toList
    (by decide) (by decide)

/-- C12 fails on the code: with no sort option `args.sort` is null, and for
jumble "cats" and the line "cats" the MatchSet is not empty, so the copy loop
calls `strcmp` on the null pointer; no sequence reaches `print_words`. Only
on an empty MatchSet does the run finish. -/
theorem C12_null_sort_undefined :
    collect "cats".toList ["cats\n".toList] = some ["cats\n".toList] ∧
    check_match qsortInsertion ⟨none, none, "cats".toList⟩ ["cats\n".toList] = none ∧
    check_match qsortInsertion ⟨none, none, "cats".toList⟩ ["dogs\n".toList] =
      some ([], E_NO_MATCHES) := by
  decide

/-- C13: with sort string "-longest" the selection loop returns the longest
prefix of the array sorted with "-len" whose elements all have the length of
the first element, and the words kept are in ascending case-insensitive
order; for jumble "pots" and the lines "top", "pot", "pots", "stop" the run
prints exactly "pots" then "stop". -/
theorem C13_longest_is_prefix_of_len (qsort : Qsort) (hq : QsortContract qsort)
    (ms : List (List Char)) :
    (∃ sel, selectLoop (some "-longest".toList)
        ((sort_array qsort "-longest".toList ms).headD [])
        (sort_array qsort "-longest".toList ms) = some sel ∧
      sel = (sort_array qsort "-len".toList ms).takeWhile
        (fun w => decide (strlen w = strlen ((sort_array qsort "-len".toList ms).headD []))) ∧
      List.Chain' (fun x y => strcasecmp x y ≤ 0) sel) ∧
    check_match qsort ⟨some "-longest".toList, none, "pots".toList⟩
      ["top\n".toList, "pot\n".toList, "pots\n".toList, "stop\n".toList] =
      some (["pots\n".toList, "stop\n".toList], E_OK) := by
  have hsorted : ∀ l, (qsort len_compare l).Pairwise (fun a b => len_compare a b ≤ 0) :=
    fun l => (hq len_compare len_compare_consistent l).2
  have hperm : ∀ l, (qsort len_compare l).Perm l :=
    fun l => (hq len_compare len_compare_consistent l).1
  have hlong : strcmp "-longest".toList "-longest".toList = 0 := by decide
  constructor
  · rw [selectLoop_some, if_pos hlong, sort_array_longest, sort_array_len]
    refine ⟨_, rfl, ?_, ?_⟩
    · apply filter_eq_takeWhile_of_sorted _ _ (hsorted ms)
      intro w hw
      rw [sorted_head_maxLen (hsorted ms)]
      exact le_maxLen hw
    · have hf := (hsorted ms).filter
        (fun w => decide (strlen w = strlen ((qsort len_compare ms).headD [])))
      have hall : ∀ w ∈ (qsort len_compare ms).filter
          (fun w => decide (strlen w = strlen ((qsort len_compare ms).headD []))),
          strlen w = strlen ((qsort len_compare ms).headD []) := by
        intro w hw
        simpa using (List.mem_filter.mp hw).2
      apply List.Pairwise.chain'
      refine List.Pairwise.imp_of_mem ?_ hf
      intro a b ha hb hab
      rw [len_compare_le_iff] at hab
      have h1 := hall a ha
      have h2 := hall b hb
      rcases hab with hab | hab
      · omega
      · exact hab.2
  · have hcol : collect "pots".toList
        ["top\n".toList, "pot\n".toList, "pots\n".toList, "stop\n".toList] =
        some ["top\n".toList, "pot\n".toList, "pots\n".toList, "stop\n".toList] := by decide
    rw [check_match_of_collect hcol, finish_some, if_pos hlong, sort_array_longest]
    have hp := hperm ["top\n".toList, "pot\n".toList, "pots\n".toList, "stop\n".toList]
    have hs := hsorted ["top\n".toList, "pot\n".toList, "pots\n".toList, "stop\n".toList]
    have hsel : (qsort len_compare
        ["top\n".toList, "pot\n".toList, "pots\n".toList, "stop\n".toList]).filter
        (fun w => decide (strlen w = strlen ((qsort len_compare
          ["top\n".toList, "pot\n".toList, "pots\n".toList, "stop\n".toList]).headD []))) =
        ["pots\n".toList, "stop\n".toList] := by
      apply sorted_pair_unique (by decide) _ (hs.filter _)
      rw [sorted_head_maxLen hs, maxLen_perm hp]
      exact hp.filter _
    rw [hsel, if_neg]
    · rfl
    · rw [hp.length_eq]
      decide

/-- Witness for C13: insertion sort for `qsort` and the MatchSet "top", "pot",
"pots", "stop". -/
theorem C13_witness :
    (∃ sel, selectLoop (some "-longest".toList)
        ((sort_array qsortInsertion "-longest".toList
          ["top\n".toList, "pot\n".toList, "pots\n".toList, "stop\n".toList]).headD [])
        (sort_array qsortInsertion "-longest".toList
          ["top\n".toList, "pot\n".toList, "pots\n".toList, "stop\n".toList]) = some sel ∧
      sel = (sort_array qsortInsertion "-len".toList
          ["top\n".toList, "pot\n".toList, "pots\n".toList, "stop\n".toList]).takeWhile
        (fun w => decide (strlen w = strlen ((sort_array qsortInsertion "-len".toList
          ["top\n".toList, "pot\n".toList, "pots\n".toList, "stop\n".toList]).headD []))) ∧
      List.Chain' (fun x y => strcasecmp x y ≤ 0) sel) ∧
    check_match qsortInsertion ⟨some "-longest".toList, none, "pots".toList⟩
      ["top\n".toList, "pot\n".toList, "pots\n".toList, "stop\n".toList] =
      some (["pots\n".toList, "stop\n".toList], E_OK) :=
  C13_longest_is_prefix_of_len qsortInsertion qsortInsertion_contract
    ["top\n".toList, "pot\n".toList, "pots\n".toList, "stop\n".toList]

/-- C14: when `parse_args` returns `E_OK`, the letters argument it stored has
at least 3 characters, all alphabetic, and the include variable is either
left as it was or holds exactly one alphabetic character. -/
theorem C14_parse_ok_gives_valid_jumble (argv : List (List Char)) (slots out : ArgSlots)
    (h : parse_args argv slots = some (E_OK, out)) :
    (∃ l, out.letters = some l ∧ 3 ≤ strlen l ∧ ∀ c ∈ l, isalpha c = true) ∧
    (out.include = slots.include ∨ ∃ r, out.include = some [r] ∧ isalpha r = true) := by
  unfold parse_args at h
  by_cases hargc : argv.length < 2 ∨ argv.length > 6
  · simp [hargc] at h
  · simp only [hargc, if_false] at h
    exact parse_loop_ok _ 0 0 slots out (by omega) h

/-- Witness for C14: the arguments "-include", "a", "abc". -/
theorem C14_witness :
    (∃ l, (ArgSlots.mk none (some "a".toList) (some "abc".toList) (some STD_DICT_PATH)).letters =
        some l ∧ 3 ≤ strlen l ∧ ∀ c ∈ l, isalpha c = true) ∧
    ((ArgSlots.mk none (some "a".toList) (some "abc".toList) (some STD_DICT_PATH)).include =
        (ArgSlots.mk none none none none).include ∨
      ∃ r, (ArgSlots.mk none (some "a".toList) (some "abc".toList) (some STD_DICT_PATH)).include =
        some [r] ∧ isalpha r = true) :=
  C14_parse_ok_gives_valid_jumble
    ["unjumble".toList, "-include".toList, "a".toList, "abc".toList]
    ⟨none, none, none, none⟩ ⟨none, some "a".toList, some "abc".toList, some STD_DICT_PATH⟩
    (by decide)

/-- C15 fails on the code: a file "cab", newline, "abcz" without a final
newline gives `fgets` the lines "cab" with newline and "abcz"; for jumble
"abc" the loop never looks at the last character of "abcz" and stores the
line, although "z" cannot be drawn from the jumble. With a newline after it
the same word is rejected. -/
theorem C15_last_letter_unchecked :
    fileLines 3 "cab\nabcz".toList = ["cab\n".toList, "abcz".toList] ∧
    collect "abc".toList (fileLines 3 "cab\nabcz".toList) =
      some ["cab\n".toList, "abcz".toList] ∧
    (change_case "abcz".toList).count 'z' = 1 ∧
    (change_case "abc".toList).count 'z' = 0 ∧
    specMatches (change_case "abc".toList) "abcz".toList = false ∧
    collect "abc".toList ["abcz\n".toList] = some [] := by
  decide

/-- C16: on a string `s`, `remove_char` run loop by loop on the buffer leaves
the string that `remove_char` of the model gives. When `c` occurs in `s` this
is `s` without its first `c`: one character shorter, one `c` fewer, every
other character as often as before and in the same order. When `c` does not
occur, `s` is unchanged. -/
theorem C16_remove_char_first_occurrence (s : List Char) (c : Char) (hs : NUL ∉ s) :
    cstring (remove_char_buffer (s ++ [NUL]) c) = remove_char s c ∧
    (c ∈ s → ∃ pre post, s = pre ++ c :: post ∧ c ∉ pre ∧ remove_char s c = pre ++ post ∧
      strlen (remove_char s c) + 1 = strlen s ∧
      (remove_char s c).count c + 1 = s.count c ∧
      ∀ d, d ≠ c → (remove_char s c).count d = s.count d) ∧
    (c ∉ s → remove_char s c = s) := by
  refine ⟨?_, ?_, ?_⟩
  · rw [remove_char_buffer_eq s c hs]
    have hr : NUL ∉ remove_char s c := by
      rw [remove_char_eq_erase]
      exact fun h => hs (List.mem_of_mem_erase h)
    split
    · exact cstring_append_NUL _ [NUL] hr
    · exact cstring_append_NUL _ [] hr
  · intro hc
    obtain ⟨pre, post, hsplit, hpre⟩ := List.eq_append_cons_of_mem hc
    have hrem : remove_char s c = pre ++ post := by
      rw [remove_char_eq_erase, hsplit, List.erase_append_right _ hpre, List.erase_cons_head]
    refine ⟨pre, post, hsplit, hpre, hrem, ?_, ?_, ?_⟩
    · rw [hrem, hsplit]
      simp only [strlen, List.length_append, List.length_cons]
      omega
    · rw [hrem, hsplit]
      simp only [List.count_append, List.count_cons_self]
      omega
    · intro d hd
      rw [hrem, hsplit]
      simp only [List.count_append]
      rw [List.count_cons, if_neg (by simpa using Ne.symm hd), Nat.add_zero]
  · intro hc
    rw [remove_char_eq_erase]
    exact List.erase_of_not_mem hc

/-- Witness for C16: removing "l" from "hello". -/
theorem C16_witness :
    cstring (remove_char_buffer ("hello".toList ++ [NUL]) 'l') = remove_char "hello".toList 'l' ∧
    ('l' ∈ "hello".toList → ∃ pre post, "hello".toList = pre ++ 'l' :: post ∧ 'l' ∉ pre ∧
      remove_char "hello".toList 'l' = pre ++ post ∧
      strlen (remove_char "hello".toList 'l') + 1 = strlen "hello".toList ∧
      (remove_char "hello".toList 'l').count 'l' + 1 = "hello".toList.count 'l' ∧
      ∀ d, d ≠ 'l' → (remove_char "hello".toList 'l').count d = "hello".toList.count d) ∧
    ('l' ∉ "hello".toList → remove_char "hello".toList 'l' = "hello".toList) :=
  C16_remove_char_first_occurrence "hello".toList 'l' (by decide)

/-- C17: on the characters the loop of `check_match` looks at, the flag
`lettersPresent` left by the full scan equals the verdict of the short-circuit
matcher that rejects at the first character the remaining multiset does not
hold; for a line `W` followed by a newline those characters are `W`. -/
theorem C17_full_scan_eq_short_circuit (J line : List Char) (hline : NUL ∉ line) :
    (matchLoop (change_case J) line).2 =
      specMatches (change_case J) (line.take (strlen line - 1)) ∧
    (∀ W, line = W ++ ['\n'] →
      (matchLoop (change_case J) line).2 = specMatches (change_case J) W) := by
  have h1 : (matchLoop (change_case J) line).2 =
      specMatches (change_case J) (line.take (strlen line - 1)) := by
    unfold matchLoop
    apply foldl_matchStep_eq_specMatches
    exact fun h => hline (List.mem_of_mem_take h)
  refine ⟨h1, ?_⟩
  intro W hW
  rw [h1, hW]
  simp [strlen]

/-- Witness for C17: jumble "pots" and the line "spots" with its newline, on
which the scan meets a shortfall at the last "s". -/
theorem C17_witness :
    (matchLoop (change_case "pots".toList) "spots\n".toList).2 =
      specMatches (change_case "pots".toList)
        ("spots\n".toList.take (strlen "spots\n".toList - 1)) ∧
    (∀ W, "spots\n".toList = W ++ ['\n'] →
      (matchLoop (change_case "pots".toList) "spots\n".toList).2 =
        specMatches (change_case "pots".toList) W) :=
  C17_full_scan_eq_short_circuit "pots".toList "spots\n".toList (by decide)

/-- C18 fails on the code: for the arguments "-include", "a", "-include", "b",
"abc" `parse_args` returns `E_OK` with include letter "b", whereas a second
sort option ("-alpha", "-len", "abc") gives `E_PARAMS`. -/
theorem C18_second_include_accepted :
    parse_args ["unjumble".toList, "-include".toList, "a".toList, "-include".toList,
        "b".toList, "abc".toList] ⟨none, none, none, none⟩ =
      some (E_OK, ⟨none, some "b".toList, some "abc".toList, some STD_DICT_PATH⟩) ∧
    parse_args ["unjumble".toList, "-alpha".toList, "-len".toList, "abc".toList]
        ⟨none, none, none, none⟩ =
      some (E_PARAMS, ⟨some "-alpha".toList, none, none, none⟩) := by
  decide

/-- C19 fails on the code: for jumble "abc" and a dictionary of 100001 lines
"cab", each of them a match, the 100001st match is stored past the end of
`words` and the run with sort option "-alpha" or "-len" and no required
letter has no defined result, where the claim has "cab" printed 100001
times. With 100000 such lines the run prints a permutation of them. -/
theorem C19_matches_past_capacity :
    lineAccepted (change_case "abc".toList) "cab\n".toList = true ∧
    (List.replicate 100001 "cab\n".toList).count "cab\n".toList = 100001 ∧
    check_match qsortInsertion ⟨some "-alpha".toList, none, "abc".toList⟩
      (List.replicate 100001 "cab\n".toList) = none ∧
    check_match qsortInsertion ⟨some "-len".toList, none, "abc".toList⟩
      (List.replicate 100001 "cab\n".toList) = none ∧
    (∃ out, check_match qsortInsertion ⟨some "-alpha".toList, none, "abc".toList⟩
        (List.replicate 100000 "cab\n".toList) = some (out, E_OK) ∧
      out.Perm (List.replicate 100000 "cab\n".toList)) := by
  have hacc : lineAccepted (change_case "abc".toList) "cab\n".toList = true := by decide
  have hfit : strlen (change_case "abc".toList) + 1 ≤
      vlaReserved (strlen (change_case "abc".toList)) := by decide
  have hnone : collect "abc".toList (List.replicate 100001 "cab\n".toList) = none := by
    rw [collect_of_fits _ _ hfit, List.filter_replicate_of_pos hacc, List.length_replicate,
      if_neg (by decide)]
  have hsome : collect "abc".toList (List.replicate 100000 "cab\n".toList) =
      some (List.replicate 100000 "cab\n".toList) := by
    rw [collect_of_fits _ _ hfit, List.filter_replicate_of_pos hacc, List.length_replicate,
      if_pos (by decide)]
  refine ⟨hacc, List.count_replicate_self _ _, check_match_of_collect_none hnone _ _ _,
    check_match_of_collect_none hnone _ _ _, ?_⟩
  have hperm := sort_array_perm qsortInsertion_contract "-alpha".toList
    (List.replicate 100000 "cab\n".toList)
  rw [check_match_of_collect hsome, finish_some, if_neg (by decide), if_neg]
  · exact ⟨_, rfl, hperm⟩
  · rw [hperm.length_eq, List.length_replicate]
    decide

/-- C20: `len_compare` is a consistent comparison: swapping the arguments
negates the sign of the result; the result is 0 exactly when the two strings
have the same length and are equal once lower-cased; and `len_compare a b ≤ 0`
with `len_compare b c ≤ 0` gives `len_compare a c ≤ 0`. -/
theorem C20_len_compare_total_preorder :
    (∀ a b, Int.sign (len_compare a b) = - Int.sign (len_compare b a)) ∧
    (∀ a b, len_compare a b = 0 ↔ strlen a = strlen b ∧ change_case a = change_case b) ∧
    (∀ a b c, len_compare a b ≤ 0 → len_compare b c ≤ 0 → len_compare a c ≤ 0) := by
  refine ⟨len_compare_consistent.1, ?_, len_compare_consistent.2⟩
  intro a b
  unfold len_compare
  by_cases h1 : strlen a > strlen b
  · simp only [h1, if_true]
    constructor
    · intro h
      omega
    · rintro ⟨h, _⟩
      omega
  · by_cases h2 : strlen b > strlen a
    · simp only [h1, h2, if_true, if_false]
      constructor
      · intro h
        omega
      · rintro ⟨h, _⟩
        omega
    · simp only [h1, h2, if_false]
      rw [strcasecmp_eq_zero]
      exact ⟨fun h => ⟨by omega, h⟩, fun h => h.2⟩

/-- Witness for C20: "pots", "stop" and "pot", each with its newline. -/
theorem C20_witness :
    len_compare "pots\n".toList "pot\n".toList ≤ 0 :=
  C20_len_compare_total_preorder.2.2 "pots\n".toList "stop\n".toList "pot\n".toList
    (by decide) (by decide)

end Unjumble
